import Mathlib

/-!
Shallow embedding of `src/api/listCommits.js` (isomorphic-git fork).

The source computes, for a git object store, the reverse adjacency map of the
commit ancestry reachable from the resolved branch heads: a recursive walk
that memoizes visited hashes, dereferences annotated tags, and stops at the
shallow boundary.

External collaborators (object reader + decoders, ref resolver, shallow set,
branch listing) are modelled as inputs:
  * `Store  : Hash → Option GitObj` merges `readObject` with the commit/tag
    decoders: `none` is a read failure, `some` is the decoded object.
  * `shallows : List Hash` is the set read by `GitShallowManager.read`.
  * `resolve : String → Option Hash` is `GitRefManager.resolve`
    (`none` = resolution failure).
  * the branch names returned by `listBranches` are an input list.

JavaScript's unbounded recursion (justified in a comment by acyclicity of the
hash graph) is modelled with explicit fuel; exhausting fuel yields the
artificial `ErrKind.outOfFuel`, which the JS code never produces.  All
theorems about successful runs quantify over the fuel.

The walk is instrumented with a trace (`List Hash`): each hash is appended at
the moment its non-shallow commit expansion begins, i.e. exactly when the
source enters the `for (let parentOid of parents)` loop for that object.  The
map component is untouched by the instrumentation.
-/

/-- Content hashes (oids). Opaque strings, as in the source. -/
abbrev Hash := String

/-- A decoded git object as the walk observes it: `readObject`'s `type`
    together with the only header fields the source consults
    (`GitCommit.headers().parent`, `GitAnnotatedTag.headers().object`). -/
inductive GitObj where
  | commit (parents : List Hash)
  | tag (target : Hash)
  | other (kind : String)
deriving DecidableEq

/-- The object store: `readObject` plus decoders; `none` models a read
    failure (missing/corrupt object). -/
abbrev Store := Hash → Option GitObj

/-- The `visited` object of the source: an insertion-ordered map from hash to
    its `children` list.  JavaScript object key order is insertion order, so
    an association list is the faithful model. -/
abbrev VisitedMap := List (Hash × List Hash)

/-- Errors the source can throw (plus the fuel artifact `outOfFuel` used to
    model unbounded recursion; the JS never produces it). -/
inductive ErrKind where
  | missingParameter (name : String)
  | resolveFail (ref : String)
  | readFail (oid : Hash)
  | objectType (oid : Hash) (actual : String) (expected : String)
  | outOfFuel
deriving DecidableEq

/-- The error after the source's `catch` block, which sets `err.caller`
    before rethrowing. -/
structure Err where
  kind : ErrKind
  caller : String
deriving DecidableEq

/-- Lookup in `visited` (JS property access). -/
def vmGet : VisitedMap → Hash → Option (List Hash)
  | [], _ => none
  | e :: rest, h => if e.1 = h then some e.2 else vmGet rest h

/-- JS `visited.hasOwnProperty(h)` / `h in visited`. -/
def vmHas (vm : VisitedMap) (h : Hash) : Bool :=
  (vmGet vm h).isSome

/-- JS `visited[h] = { children: [] }`: replaces the record in place if the
    key exists, else appends the key. -/
def vmSet : VisitedMap → Hash → VisitedMap
  | [], h => [(h, [])]
  | e :: rest, h => if e.1 = h then (h, []) :: rest else e :: vmSet rest h

/-- JS `visited[p].children.push(c)` (a no-op on an absent key; the source
    only calls it after ensuring the key is present). -/
def vmPush : VisitedMap → Hash → Hash → VisitedMap
  | [], _, _ => []
  | e :: rest, p, c => if e.1 = p then (e.1, e.2 ++ [c]) :: rest else e :: vmPush rest p c

/-- The body of the source's `for (let parentOid of parents)` loop, with the
    recursive `walk` call abstracted as `w` (instantiated with the walk at
    one unit of fuel less).  Faithful to the source line by line:
    guarded recursive walk, conditional fresh insertion, then the push. -/
def goParents (w : Hash → VisitedMap → List Hash → Except ErrKind (VisitedMap × List Hash))
    (oid : Hash) :
    List Hash → VisitedMap → List Hash → Except ErrKind (VisitedMap × List Hash)
  | [], visited, tr => Except.ok (visited, tr)
  | p :: ps, visited, tr =>
    match (if vmHas visited p then Except.ok (visited, tr) else w p visited tr) with
    | Except.error e => Except.error e
    | Except.ok (v1, t1) =>
      let v2 := if vmHas v1 p then v1 else vmSet v1 p
      goParents w oid ps (vmPush v2 p oid) t1

/-- The source's `async function walk(oid)`: read the object, dereference an
    annotated tag, reject non-commits, and expand parents unless the oid is
    in the shallow set.  State is `(visited, trace)`; the trace records each
    non-shallow commit expansion in the order it begins. -/
def walk (store : Store) (shallows : List Hash) :
    Nat → Hash → VisitedMap → List Hash → Except ErrKind (VisitedMap × List Hash)
  | 0, _, _, _ => Except.error ErrKind.outOfFuel
  | fuel + 1, oid, visited, tr =>
    match store oid with
    | none => Except.error (ErrKind.readFail oid)
    | some (GitObj.tag target) => walk store shallows fuel target visited tr
    | some (GitObj.other kind) => Except.error (ErrKind.objectType oid kind "commit")
    | some (GitObj.commit parents) =>
      if shallows.contains oid then Except.ok (visited, tr)
      else goParents (fun p v t => walk store shallows fuel p v t) oid parents visited
        (tr ++ [oid])

/-- The source's start loop: `visited[oid] = { children: [] }` followed by an
    unconditional `await walk(oid)`, for each element of `startingSet` in
    insertion order. -/
def walkAll (store : Store) (shallows : List Hash) (fuel : Nat) :
    List Hash → VisitedMap → List Hash → Except ErrKind (VisitedMap × List Hash)
  | [], visited, tr => Except.ok (visited, tr)
  | oid :: rest, visited, tr =>
    match walk store shallows fuel oid (vmSet visited oid) tr with
    | Except.error e => Except.error e
    | Except.ok (v, t) => walkAll store shallows fuel rest v t

/-- JS `Set.add`: keep insertion order, ignore duplicates. -/
def setAdd (s : List Hash) (h : Hash) : List Hash :=
  if s.contains h then s else s ++ [h]

/-- The source's starting-set loop: resolve every ref, failing loudly on the
    first unresolvable one (no try/catch around these). -/
def resolveStart (resolve : String → Option Hash) :
    List String → List Hash → Except ErrKind (List Hash)
  | [], acc => Except.ok acc
  | r :: rs, acc =>
    match resolve r with
    | none => Except.error (ErrKind.resolveFail r)
    | some oid => resolveStart resolve rs (setAdd acc oid)

/-- The source's finishing-set loop: the body is wrapped in
    `try { ... } catch (err) { }`, so a resolution failure is skipped and the
    loop continues with the next ref. -/
def resolveFinish (resolve : String → Option Hash) :
    List String → List Hash → List Hash
  | [], acc => acc
  | r :: rs, acc =>
    match resolve r with
    | none => resolveFinish resolve rs acc
    | some oid => resolveFinish resolve rs (setAdd acc oid)

/-- The body of `listCommits` inside the `try`: parameter assertions, ref
    resolution, finishing-set resolution (computed and then never used, as in
    the source, where moreover `finish` is pinned to `[]`), then the walk.
    `fsGiven`/`gitdirGiven` model `assertParameter('fs', fs)` and
    `assertParameter('gitdir', gitdir)`.  The trace is dropped at the end:
    the source returns only `visited`. -/
def listCommitsCore (fsGiven gitdirGiven : Bool) (resolve : String → Option Hash)
    (store : Store) (shallows : List Hash) (branches finish : List String)
    (fuel : Nat) : Except ErrKind VisitedMap :=
  if !fsGiven then Except.error (ErrKind.missingParameter "fs")
  else if !gitdirGiven then Except.error (ErrKind.missingParameter "gitdir")
  else
    match resolveStart resolve branches [] with
    | Except.error e => Except.error e
    | Except.ok startingSet =>
      let _finishingSet := resolveFinish resolve finish []
      match walkAll store shallows fuel startingSet [] [] with
      | Except.error e => Except.error e
      | Except.ok (visited, _) => Except.ok visited

/-- `listCommits` including its `catch` block: any thrown error gets
    `err.caller = 'git.listBranches'` (sic — the string in the source names
    `listBranches`, not `listCommits`) and is rethrown. -/
def listCommitsFull (fsGiven gitdirGiven : Bool) (resolve : String → Option Hash)
    (store : Store) (shallows : List Hash) (branches finish : List String)
    (fuel : Nat) : Except Err VisitedMap :=
  match listCommitsCore fsGiven gitdirGiven resolve store shallows branches finish fuel with
  | Except.error e => Except.error { kind := e, caller := "git.listBranches" }
  | Except.ok v => Except.ok v

/-! ### Basic lemmas about the VisitedMap operations -/

theorem vmGet_vmSet (vm : VisitedMap) (h x : Hash) :
    vmGet (vmSet vm h) x = if x = h then some [] else vmGet vm x := by
  induction vm with
  | nil =>
    by_cases hx : x = h
    · simp [vmSet, vmGet, hx]
    · simp [vmSet, vmGet, hx, Ne.symm hx]
  | cons e rest ih =>
    by_cases he : e.1 = h
    · by_cases hx : x = h
      · simp [vmSet, vmGet, he, hx]
      · simp [vmSet, vmGet, he, hx, Ne.symm hx]
    · by_cases hex : e.1 = x
      · have hxh : ¬x = h := fun q => he (hex.trans q)
        simp [vmSet, vmGet, he, hex, hxh]
      · simp [vmSet, vmGet, he, hex, ih]

theorem vmGet_vmPush (vm : VisitedMap) (p c x : Hash) :
    vmGet (vmPush vm p c) x =
      if x = p then (vmGet vm p).map (fun l => l ++ [c]) else vmGet vm x := by
  induction vm with
  | nil =>
    by_cases hx : x = p <;> simp [vmPush, vmGet, hx]
  | cons e rest ih =>
    by_cases hep : e.1 = p
    · by_cases hx : x = p
      · simp [vmPush, vmGet, hep, hx]
      · simp [vmPush, vmGet, hep, hx, Ne.symm hx]
    · by_cases hex : e.1 = x
      · have hxp : ¬x = p := fun q => hep (hex.trans q)
        simp [vmPush, vmGet, hep, hex, hxp]
      · simp [vmPush, vmGet, hep, hex, ih]

theorem vmHas_iff (vm : VisitedMap) (h : Hash) :
    vmHas vm h = true ↔ ∃ kids, vmGet vm h = some kids := by
  unfold vmHas
  cases hg : vmGet vm h <;> simp [Option.isSome]

theorem vmHas_vmSet (vm : VisitedMap) (h x : Hash) :
    vmHas (vmSet vm h) x = (if x = h then true else vmHas vm x) := by
  unfold vmHas
  rw [vmGet_vmSet]
  by_cases hx : x = h <;> simp [hx]

theorem vmHas_vmPush (vm : VisitedMap) (p c x : Hash) :
    vmHas (vmPush vm p c) x = vmHas vm x := by
  unfold vmHas
  rw [vmGet_vmPush]
  by_cases hx : x = p
  · subst hx
    cases hg : vmGet vm x <;> simp [hg]
  · simp [hx]

/-- One visited map extends another: every record of the first is present in
    the second with the same children prefix, possibly extended. -/
def vmExt (vm v : VisitedMap) : Prop :=
  ∀ x kids, vmGet vm x = some kids → ∃ more, vmGet v x = some (kids ++ more)

theorem vmExt_refl (vm : VisitedMap) : vmExt vm vm :=
  fun x kids hx => ⟨[], by simpa using hx⟩

theorem vmExt_trans {a b c : VisitedMap} (h1 : vmExt a b) (h2 : vmExt b c) :
    vmExt a c := by
  intro x kids hx
  obtain ⟨m1, hb⟩ := h1 x kids hx
  obtain ⟨m2, hc⟩ := h2 x (kids ++ m1) hb
  exact ⟨m1 ++ m2, by simpa [List.append_assoc] using hc⟩

theorem vmExt_vmSet {vm : VisitedMap} {h : Hash} (hh : vmHas vm h = false) :
    vmExt vm (vmSet vm h) := by
  intro x kids hx
  refine ⟨[], ?_⟩
  rw [vmGet_vmSet, if_neg, List.append_nil]
  · exact hx
  · rintro rfl
    unfold vmHas at hh
    rw [hx] at hh
    simp at hh

theorem vmExt_vmPush (vm : VisitedMap) (p c : Hash) :
    vmExt vm (vmPush vm p c) := by
  intro x kids hx
  rw [vmGet_vmPush]
  by_cases hxp : x = p
  · subst hxp
    exact ⟨[c], by simp [hx]⟩
  · exact ⟨[], by simp [hxp, hx]⟩

theorem vmHas_of_vmExt {vm v : VisitedMap} (he : vmExt vm v) {x : Hash}
    (hx : vmHas vm x = true) : vmHas v x = true := by
  rw [vmHas_iff] at hx ⊢
  obtain ⟨kids, hk⟩ := hx
  obtain ⟨more, hm⟩ := he x kids hk
  exact ⟨kids ++ more, hm⟩

/-! ### Walk invariants: state extension, trace growth, parent insertion -/

theorem goParents_ext
    (w : Hash → VisitedMap → List Hash → Except ErrKind (VisitedMap × List Hash))
    (oid : Hash) :
    ∀ (ps : List Hash) (vm : VisitedMap) (tr : List Hash) (v : VisitedMap) (t2 : List Hash),
    (∀ p v1 t1 v2 u2, w p v1 t1 = Except.ok (v2, u2) → vmExt v1 v2 ∧ ∃ d, u2 = t1 ++ d) →
    goParents w oid ps vm tr = Except.ok (v, t2) →
    vmExt vm v ∧ ∃ d, t2 = tr ++ d := by
  intro ps
  induction ps with
  | nil =>
    intro vm tr v t2 _ h
    simp only [goParents, Except.ok.injEq, Prod.mk.injEq] at h
    obtain ⟨hv, ht⟩ := h
    subst hv; subst ht
    exact ⟨vmExt_refl vm, [], by simp⟩
  | cons p ps ih =>
    intro vm tr v t2 hw h
    simp only [goParents] at h
    by_cases hp : vmHas vm p = true
    · simp only [if_pos hp] at h
      have hstep := ih (vmPush vm p oid) tr v t2 hw h
      refine ⟨vmExt_trans (vmExt_vmPush vm p oid) hstep.1, hstep.2⟩
    · rw [if_neg hp] at h
      cases hw1 : w p vm tr with
      | error e => simp [hw1] at h
      | ok pr =>
        obtain ⟨v1, t1⟩ := pr
        simp only [hw1] at h
        obtain ⟨hext1, d1, hd1⟩ := hw p vm tr v1 t1 hw1
        by_cases hq : vmHas v1 p = true
        · simp only [if_pos hq] at h
          have hstep := ih (vmPush v1 p oid) t1 v t2 hw h
          refine ⟨vmExt_trans hext1 (vmExt_trans (vmExt_vmPush v1 p oid) hstep.1), ?_⟩
          obtain ⟨d2, hd2⟩ := hstep.2
          exact ⟨d1 ++ d2, by rw [hd2, hd1, List.append_assoc]⟩
        · simp only [if_neg hq] at h
          have hstep := ih (vmPush (vmSet v1 p) p oid) t1 v t2 hw h
          have hset : vmExt v1 (vmSet v1 p) := vmExt_vmSet (by simpa using hq)
          refine ⟨vmExt_trans hext1 (vmExt_trans hset
            (vmExt_trans (vmExt_vmPush (vmSet v1 p) p oid) hstep.1)), ?_⟩
          obtain ⟨d2, hd2⟩ := hstep.2
          exact ⟨d1 ++ d2, by rw [hd2, hd1, List.append_assoc]⟩

theorem walk_ext (store : Store) (sh : List Hash) :
    ∀ (fuel : Nat) (oid : Hash) (vm : VisitedMap) (tr : List Hash) (v : VisitedMap)
      (t2 : List Hash),
    walk store sh fuel oid vm tr = Except.ok (v, t2) →
    vmExt vm v ∧ ∃ d, t2 = tr ++ d := by
  intro fuel
  induction fuel with
  | zero =>
    intro oid vm tr v t2 h
    simp [walk] at h
  | succ f ih =>
    intro oid vm tr v t2 h
    simp only [walk] at h
    cases hso : store oid with
    | none => simp [hso] at h
    | some obj =>
      cases obj with
      | tag target =>
        simp only [hso] at h
        exact ih target vm tr v t2 h
      | other kind => simp [hso] at h
      | commit parents =>
        simp only [hso] at h
        by_cases hsh : sh.contains oid = true
        · simp only [hsh, if_true, Except.ok.injEq, Prod.mk.injEq] at h
          obtain ⟨hv, ht⟩ := h
          subst hv; subst ht
          exact ⟨vmExt_refl vm, [], by simp⟩
        · simp only [hsh, if_false] at h
          have hstep := goParents_ext _ oid parents vm (tr ++ [oid]) v t2
            (fun p v1 t1 v2 u2 hcall => ih p v1 t1 v2 u2 hcall) h
          obtain ⟨d2, hd2⟩ := hstep.2
          exact ⟨hstep.1, [oid] ++ d2, by rw [hd2, List.append_assoc]⟩

theorem goParents_parents_has
    (w : Hash → VisitedMap → List Hash → Except ErrKind (VisitedMap × List Hash))
    (oid : Hash) :
    ∀ (ps : List Hash) (vm : VisitedMap) (tr : List Hash) (v : VisitedMap) (t2 : List Hash),
    (∀ p v1 t1 v2 u2, w p v1 t1 = Except.ok (v2, u2) → vmExt v1 v2 ∧ ∃ d, u2 = t1 ++ d) →
    goParents w oid ps vm tr = Except.ok (v, t2) →
    ∀ p, p ∈ ps → vmHas v p = true := by
  intro ps
  induction ps with
  | nil =>
    intro vm tr v t2 _ _ p hp
    simp at hp
  | cons q ps ih =>
    intro vm tr v t2 hw h p hp
    simp only [goParents] at h
    have hrest :
        ∀ v1 t1, vmHas v1 q = true →
          goParents w oid ps (vmPush v1 q oid) t1 = Except.ok (v, t2) →
          vmHas v p = true := by
      intro v1 t1 hq1 hgo
      rcases List.mem_cons.mp hp with hpq | hps
      · subst hpq
        have hext := (goParents_ext w oid ps (vmPush v1 p oid) t1 v t2 hw hgo).1
        exact vmHas_of_vmExt hext (by rw [vmHas_vmPush]; exact hq1)
      · exact ih (vmPush v1 q oid) t1 v t2 hw hgo p hps
    by_cases hq : vmHas vm q = true
    · simp only [if_pos hq] at h
      exact hrest vm tr hq h
    · rw [if_neg hq] at h
      cases hw1 : w q vm tr with
      | error e => simp [hw1] at h
      | ok pr =>
        obtain ⟨v1, t1⟩ := pr
        simp only [hw1] at h
        by_cases hq1 : vmHas v1 q = true
        · simp only [if_pos hq1] at h
          exact hrest v1 t1 hq1 h
        · simp only [if_neg hq1] at h
          exact hrest (vmSet v1 q) t1 (by rw [vmHas_vmSet]; simp) h

/-- A successful walk of a non-shallow commit records the oid in the trace. -/
theorem walk_traces_self (store : Store) (sh : List Hash) (fuel : Nat) (oid : Hash)
    (vm : VisitedMap) (tr : List Hash) (v : VisitedMap) (t2 : List Hash) (ps : List Hash)
    (hso : store oid = some (GitObj.commit ps)) (hsh : sh.contains oid = false)
    (h : walk store sh fuel oid vm tr = Except.ok (v, t2)) :
    oid ∈ t2 := by
  cases fuel with
  | zero => simp [walk] at h
  | succ f =>
    simp only [walk, hso] at h
    rw [hsh] at h
    simp only [Bool.false_eq_true, if_false] at h
    obtain ⟨_, d, hd⟩ := goParents_ext _ oid ps vm (tr ++ [oid]) v t2
      (fun p v1 t1 v2 u2 hcall => walk_ext store sh f p v1 t1 v2 u2 hcall) h
    rw [hd]
    simp

/-! ### The expansion invariants

`KeysTraced`: every key of the visited map holding a non-shallow commit has
had its expansion started (it is in the trace).  `ParentsRecorded`: every
traced hash outside the current recursion stack `S` has all its parents
present as keys.  Together they give reachability completeness. -/

def KeysTraced (store : Store) (sh : List Hash) (vm : VisitedMap) (tr : List Hash) : Prop :=
  ∀ h ps, vmHas vm h = true → store h = some (GitObj.commit ps) →
    sh.contains h = false → h ∈ tr

def ParentsRecorded (store : Store) (sh : List Hash) (S : List Hash)
    (vm : VisitedMap) (tr : List Hash) : Prop :=
  ∀ x ps, x ∈ tr → x ∉ S → store x = some (GitObj.commit ps) →
    sh.contains x = false → ∀ p, p ∈ ps → vmHas vm p = true

theorem goParents_keysTraced (store : Store) (sh : List Hash)
    (w : Hash → VisitedMap → List Hash → Except ErrKind (VisitedMap × List Hash))
    (oid : Hash) :
    ∀ (ps : List Hash) (vm : VisitedMap) (tr : List Hash) (v : VisitedMap) (t2 : List Hash),
    (∀ p v1 t1 v2 u2 qs, w p v1 t1 = Except.ok (v2, u2) →
      store p = some (GitObj.commit qs) → sh.contains p = false → p ∈ u2) →
    (∀ p v1 t1 v2 u2,
      (∀ h qs, vmHas v1 h = true → h ≠ p → store h = some (GitObj.commit qs) →
        sh.contains h = false → h ∈ t1) →
      w p v1 t1 = Except.ok (v2, u2) → KeysTraced store sh v2 u2) →
    goParents w oid ps vm tr = Except.ok (v, t2) →
    KeysTraced store sh vm tr →
    KeysTraced store sh v t2 := by
  intro ps
  induction ps with
  | nil =>
    intro vm tr v t2 _ _ h hkt
    simp only [goParents, Except.ok.injEq, Prod.mk.injEq] at h
    obtain ⟨hv, ht⟩ := h
    subst hv; subst ht
    exact hkt
  | cons q ps ih =>
    intro vm tr v t2 hwself hwkt h hkt
    simp only [goParents] at h
    by_cases hq : vmHas vm q = true
    · simp only [if_pos hq] at h
      refine ih (vmPush vm q oid) tr v t2 hwself hwkt h ?_
      intro x xs hx hsx hshx
      rw [vmHas_vmPush] at hx
      exact hkt x xs hx hsx hshx
    · rw [if_neg hq] at h
      cases hw1 : w q vm tr with
      | error e => simp [hw1] at h
      | ok pr =>
        obtain ⟨v1, t1⟩ := pr
        simp only [hw1] at h
        have hkt1 : KeysTraced store sh v1 t1 :=
          hwkt q vm tr v1 t1 (fun x xs hx _ hsx hshx => hkt x xs hx hsx hshx) hw1
        by_cases hq1 : vmHas v1 q = true
        · simp only [if_pos hq1] at h
          refine ih (vmPush v1 q oid) t1 v t2 hwself hwkt h ?_
          intro x xs hx hsx hshx
          rw [vmHas_vmPush] at hx
          exact hkt1 x xs hx hsx hshx
        · simp only [if_neg hq1] at h
          refine ih (vmPush (vmSet v1 q) q oid) t1 v t2 hwself hwkt h ?_
          intro x xs hx hsx hshx
          rw [vmHas_vmPush, vmHas_vmSet] at hx
          by_cases hxq : x = q
          · subst hxq
            exact hwself x vm tr v1 t1 xs hw1 hsx hshx
          · rw [if_neg hxq] at hx
            exact hkt1 x xs hx hsx hshx

theorem walk_keysTraced (store : Store) (sh : List Hash) :
    ∀ (fuel : Nat) (oid : Hash) (vm : VisitedMap) (tr : List Hash) (v : VisitedMap)
      (t2 : List Hash),
    (∀ h ps, vmHas vm h = true → h ≠ oid → store h = some (GitObj.commit ps) →
      sh.contains h = false → h ∈ tr) →
    walk store sh fuel oid vm tr = Except.ok (v, t2) →
    KeysTraced store sh v t2 := by
  intro fuel
  induction fuel with
  | zero =>
    intro oid vm tr v t2 _ h
    simp [walk] at h
  | succ f ih =>
    intro oid vm tr v t2 hpre h
    simp only [walk] at h
    cases hso : store oid with
    | none => simp [hso] at h
    | some obj =>
      cases obj with
      | tag target =>
        simp only [hso] at h
        refine ih target vm tr v t2 ?_ h
        intro x xs hx _ hsx hshx
        refine hpre x xs hx ?_ hsx hshx
        rintro rfl
        rw [hso] at hsx
        simp at hsx
      | other kind => simp [hso] at h
      | commit parents =>
        simp only [hso] at h
        by_cases hsh : sh.contains oid = true
        · simp only [if_pos hsh, Except.ok.injEq, Prod.mk.injEq] at h
          obtain ⟨hv, ht⟩ := h
          subst hv; subst ht
          intro x xs hx hsx hshx
          by_cases hxo : x = oid
          · subst hxo
            rw [hsh] at hshx
            simp at hshx
          · exact hpre x xs hx hxo hsx hshx
        · rw [if_neg hsh] at h
          refine goParents_keysTraced store sh _ oid parents vm (tr ++ [oid]) v t2
            (fun p v1 t1 v2 u2 qs hcall hsp hshp =>
              walk_traces_self store sh f p v1 t1 v2 u2 qs hsp hshp hcall)
            (fun p v1 t1 v2 u2 hp hcall => ih p v1 t1 v2 u2 hp hcall) h ?_
          intro x xs hx hsx hshx
          by_cases hxo : x = oid
          · subst hxo
            simp
          · exact List.mem_append_left _ (hpre x xs hx hxo hsx hshx)

theorem goParents_parentsRecorded (store : Store) (sh : List Hash)
    (w : Hash → VisitedMap → List Hash → Except ErrKind (VisitedMap × List Hash))
    (oid : Hash) (S : List Hash) :
    ∀ (ps : List Hash) (vm : VisitedMap) (tr : List Hash) (v : VisitedMap) (t2 : List Hash),
    (∀ p v1 t1 v2 u2, ParentsRecorded store sh S v1 t1 →
      w p v1 t1 = Except.ok (v2, u2) → ParentsRecorded store sh S v2 u2) →
    goParents w oid ps vm tr = Except.ok (v, t2) →
    ParentsRecorded store sh S vm tr →
    ParentsRecorded store sh S v t2 := by
  intro ps
  induction ps with
  | nil =>
    intro vm tr v t2 _ h hpr
    simp only [goParents, Except.ok.injEq, Prod.mk.injEq] at h
    obtain ⟨hv, ht⟩ := h
    subst hv; subst ht
    exact hpr
  | cons q ps ih =>
    intro vm tr v t2 hw h hpr
    simp only [goParents] at h
    have hstep : ∀ v1 t1, ParentsRecorded store sh S v1 t1 →
        goParents w oid ps (vmPush (vmSet v1 q) q oid) t1 = Except.ok (v, t2) ∨
        goParents w oid ps (vmPush v1 q oid) t1 = Except.ok (v, t2) →
        ParentsRecorded store sh S v t2 := by
      intro v1 t1 hpr1 hgo
      have hset : ParentsRecorded store sh S (vmSet v1 q) t1 := by
        intro x xs hx hsx hso hsh p hp
        rw [vmHas_vmSet]
        by_cases hpq : p = q
        · simp [hpq]
        · rw [if_neg hpq]
          exact hpr1 x xs hx hsx hso hsh p hp
      have hpush : ∀ (u : VisitedMap), ParentsRecorded store sh S u t1 →
          ParentsRecorded store sh S (vmPush u q oid) t1 := by
        intro u hu x xs hx hsx hso hsh p hp
        rw [vmHas_vmPush]
        exact hu x xs hx hsx hso hsh p hp
      rcases hgo with hgo | hgo
      · exact ih (vmPush (vmSet v1 q) q oid) t1 v t2 hw hgo (hpush _ hset)
      · exact ih (vmPush v1 q oid) t1 v t2 hw hgo (hpush _ hpr1)
    by_cases hq : vmHas vm q = true
    · simp only [if_pos hq] at h
      exact hstep vm tr hpr (Or.inr h)
    · rw [if_neg hq] at h
      cases hw1 : w q vm tr with
      | error e => simp [hw1] at h
      | ok pr =>
        obtain ⟨v1, t1⟩ := pr
        simp only [hw1] at h
        have hpr1 : ParentsRecorded store sh S v1 t1 := hw q vm tr v1 t1 hpr hw1
        by_cases hq1 : vmHas v1 q = true
        · simp only [if_pos hq1] at h
          exact hstep v1 t1 hpr1 (Or.inr h)
        · simp only [if_neg hq1] at h
          exact hstep v1 t1 hpr1 (Or.inl h)

theorem walk_parentsRecorded (store : Store) (sh : List Hash) :
    ∀ (fuel : Nat) (S : List Hash) (oid : Hash) (vm : VisitedMap) (tr : List Hash)
      (v : VisitedMap) (t2 : List Hash),
    ParentsRecorded store sh S vm tr →
    walk store sh fuel oid vm tr = Except.ok (v, t2) →
    ParentsRecorded store sh S v t2 := by
  intro fuel
  induction fuel with
  | zero =>
    intro S oid vm tr v t2 _ h
    simp [walk] at h
  | succ f ih =>
    intro S oid vm tr v t2 hpr h
    simp only [walk] at h
    cases hso : store oid with
    | none => simp [hso] at h
    | some obj =>
      cases obj with
      | tag target =>
        simp only [hso] at h
        exact ih S target vm tr v t2 hpr h
      | other kind => simp [hso] at h
      | commit parents =>
        simp only [hso] at h
        by_cases hsh : sh.contains oid = true
        · simp only [if_pos hsh, Except.ok.injEq, Prod.mk.injEq] at h
          obtain ⟨hv, ht⟩ := h
          subst hv; subst ht
          exact hpr
        · rw [if_neg hsh] at h
          have hpre2 : ParentsRecorded store sh (oid :: S) vm (tr ++ [oid]) := by
            intro x xs hx hsx hso2 hsh2 p hp
            rcases List.mem_append.mp hx with hx | hx
            · exact hpr x xs hx (fun hmem => hsx (List.mem_cons_of_mem _ hmem)) hso2 hsh2 p hp
            · simp only [List.mem_singleton] at hx
              subst hx
              exact absurd (List.mem_cons_self _ _) hsx
          have hpost := goParents_parentsRecorded store sh _ oid (oid :: S) parents vm
            (tr ++ [oid]) v t2
            (fun p v1 t1 v2 u2 hp1 hcall => ih (oid :: S) p v1 t1 v2 u2 hp1 hcall) h hpre2
          have hparents : ∀ p, p ∈ parents → vmHas v p = true :=
            goParents_parents_has _ oid parents vm (tr ++ [oid]) v t2
              (fun p v1 t1 v2 u2 hcall => walk_ext store sh f p v1 t1 v2 u2 hcall) h
          intro x xs hx hsx hso2 hsh2 p hp
          by_cases hxo : x = oid
          · subst hxo
            rw [hso] at hso2
            injection hso2 with hso2
            injection hso2 with hso2
            subst hso2
            exact hparents p hp
          · exact hpost x xs hx (by simp [hxo, hsx]) hso2 hsh2 p hp

/-! ### Lifting the invariants through the start loop -/

theorem walkAll_has_mono (store : Store) (sh : List Hash) (fuel : Nat) :
    ∀ (starts : List Hash) (vm : VisitedMap) (tr : List Hash) (v : VisitedMap)
      (t2 : List Hash),
    walkAll store sh fuel starts vm tr = Except.ok (v, t2) →
    (∀ x, vmHas vm x = true → vmHas v x = true) ∧ ∃ d, t2 = tr ++ d := by
  intro starts
  induction starts with
  | nil =>
    intro vm tr v t2 h
    simp only [walkAll, Except.ok.injEq, Prod.mk.injEq] at h
    obtain ⟨hv, ht⟩ := h
    subst hv; subst ht
    exact ⟨fun x hx => hx, [], by simp⟩
  | cons s rest ih =>
    intro vm tr v t2 h
    simp only [walkAll] at h
    cases hw1 : walk store sh fuel s (vmSet vm s) tr with
    | error e => simp [hw1] at h
    | ok pr =>
      obtain ⟨v1, t1⟩ := pr
      simp only [hw1] at h
      obtain ⟨hext1, d1, hd1⟩ := walk_ext store sh fuel s (vmSet vm s) tr v1 t1 hw1
      obtain ⟨hmono2, d2, hd2⟩ := ih v1 t1 v t2 h
      refine ⟨?_, d1 ++ d2, by rw [hd2, hd1, List.append_assoc]⟩
      intro x hx
      refine hmono2 x (vmHas_of_vmExt hext1 ?_)
      rw [vmHas_vmSet]
      by_cases hxs : x = s
      · simp [hxs]
      · rw [if_neg hxs]; exact hx

theorem walkAll_keysTraced (store : Store) (sh : List Hash) (fuel : Nat) :
    ∀ (starts : List Hash) (vm : VisitedMap) (tr : List Hash) (v : VisitedMap)
      (t2 : List Hash),
    walkAll store sh fuel starts vm tr = Except.ok (v, t2) →
    KeysTraced store sh vm tr →
    KeysTraced store sh v t2 := by
  intro starts
  induction starts with
  | nil =>
    intro vm tr v t2 h hkt
    simp only [walkAll, Except.ok.injEq, Prod.mk.injEq] at h
    obtain ⟨hv, ht⟩ := h
    subst hv; subst ht
    exact hkt
  | cons s rest ih =>
    intro vm tr v t2 h hkt
    simp only [walkAll] at h
    cases hw1 : walk store sh fuel s (vmSet vm s) tr with
    | error e => simp [hw1] at h
    | ok pr =>
      obtain ⟨v1, t1⟩ := pr
      simp only [hw1] at h
      refine ih v1 t1 v t2 h ?_
      refine walk_keysTraced store sh fuel s (vmSet vm s) tr v1 t1 ?_ hw1
      intro x xs hx hxs hsox hshx
      rw [vmHas_vmSet, if_neg hxs] at hx
      exact hkt x xs hx hsox hshx

theorem walkAll_parentsRecorded (store : Store) (sh : List Hash) (fuel : Nat) :
    ∀ (starts : List Hash) (vm : VisitedMap) (tr : List Hash) (v : VisitedMap)
      (t2 : List Hash),
    walkAll store sh fuel starts vm tr = Except.ok (v, t2) →
    ParentsRecorded store sh [] vm tr →
    ParentsRecorded store sh [] v t2 := by
  intro starts
  induction starts with
  | nil =>
    intro vm tr v t2 h hpr
    simp only [walkAll, Except.ok.injEq, Prod.mk.injEq] at h
    obtain ⟨hv, ht⟩ := h
    subst hv; subst ht
    exact hpr
  | cons s rest ih =>
    intro vm tr v t2 h hpr
    simp only [walkAll] at h
    cases hw1 : walk store sh fuel s (vmSet vm s) tr with
    | error e => simp [hw1] at h
    | ok pr =>
      obtain ⟨v1, t1⟩ := pr
      simp only [hw1] at h
      refine ih v1 t1 v t2 h ?_
      refine walk_parentsRecorded store sh fuel [] s (vmSet vm s) tr v1 t1 ?_ hw1
      intro x xs hx hxs hsox hshx p hp
      rw [vmHas_vmSet]
      by_cases hps : p = s
      · simp [hps]
      · rw [if_neg hps]
        exact hpr x xs hx hxs hsox hshx p hp

theorem walkAll_has_start (store : Store) (sh : List Hash) (fuel : Nat) :
    ∀ (starts : List Hash) (vm : VisitedMap) (tr : List Hash) (v : VisitedMap)
      (t2 : List Hash) (s : Hash),
    walkAll store sh fuel starts vm tr = Except.ok (v, t2) →
    s ∈ starts →
    vmHas v s = true := by
  intro starts
  induction starts with
  | nil =>
    intro vm tr v t2 s _ hs
    simp at hs
  | cons q rest ih =>
    intro vm tr v t2 s h hs
    simp only [walkAll] at h
    cases hw1 : walk store sh fuel q (vmSet vm q) tr with
    | error e => simp [hw1] at h
    | ok pr =>
      obtain ⟨v1, t1⟩ := pr
      simp only [hw1] at h
      rcases List.mem_cons.mp hs with hsq | hsr
      · subst hsq
        have h1 : vmHas v1 s = true := by
          refine vmHas_of_vmExt (walk_ext store sh fuel s (vmSet vm s) tr v1 t1 hw1).1 ?_
          rw [vmHas_vmSet]
          simp
        exact (walkAll_has_mono store sh fuel rest v1 t1 v t2 h).1 s h1
      · exact ih v1 t1 v t2 s h hsr

/-! ### Reachability (parent edges, stopping at the shallow boundary) -/

/-- `Reaches store sh a b`: `b` is reachable from `a` by following parent
    edges of non-shallow commits (zero or more steps). -/
inductive Reaches (store : Store) (sh : List Hash) : Hash → Hash → Prop
  | refl (h : Hash) : Reaches store sh h h
  | parent {a b : Hash} {ps : List Hash} {p : Hash} :
      Reaches store sh a b → store b = some (GitObj.commit ps) →
      sh.contains b = false → p ∈ ps → Reaches store sh a p

/-- Reachability completeness over a whole successful start loop: every hash
    reachable from a starting hash is a key of the final map. -/
theorem walkAll_reach_has (store : Store) (sh : List Hash) (fuel : Nat)
    (starts : List Hash) (v : VisitedMap) (t2 : List Hash) (s x : Hash)
    (h : walkAll store sh fuel starts [] [] = Except.ok (v, t2))
    (hs : s ∈ starts) (hr : Reaches store sh s x) :
    vmHas v x = true := by
  induction hr with
  | refl => exact walkAll_has_start store sh fuel starts [] [] v t2 s h hs
  | parent hab hsob hshb hp ihab =>
    have hkt : KeysTraced store sh v t2 :=
      walkAll_keysTraced store sh fuel starts [] [] v t2 h (by intro x xs hx; simp [vmHas, vmGet] at hx)
    have hpr : ParentsRecorded store sh [] v t2 :=
      walkAll_parentsRecorded store sh fuel starts [] [] v t2 h
        (by intro x xs hx; simp at hx)
    have hbtr := hkt _ _ ihab hsob hshb
    exact hpr _ _ hbtr (by simp) hsob hshb _ hp

/-! ### Walk reachability (tag dereference edges included) and key soundness -/

/-- `ReachW store sh a b`: the walk started at `a` can reach `b`, following
    tag dereferences and parent edges of non-shallow commits. -/
inductive ReachW (store : Store) (sh : List Hash) : Hash → Hash → Prop
  | refl (h : Hash) : ReachW store sh h h
  | tagStep {a b t : Hash} : ReachW store sh a b → store b = some (GitObj.tag t) →
      ReachW store sh a t
  | parent {a b : Hash} {ps : List Hash} {p : Hash} :
      ReachW store sh a b → store b = some (GitObj.commit ps) →
      sh.contains b = false → p ∈ ps → ReachW store sh a p

theorem ReachW.trans {store : Store} {sh : List Hash} {a b c : Hash}
    (h1 : ReachW store sh a b) (h2 : ReachW store sh b c) : ReachW store sh a c := by
  induction h2 with
  | refl => exact h1
  | tagStep _ hso ih => exact ReachW.tagStep ih hso
  | parent _ hso hsh hp ih => exact ReachW.parent ih hso hsh hp

theorem goParents_keys_sound (store : Store) (sh : List Hash)
    (w : Hash → VisitedMap → List Hash → Except ErrKind (VisitedMap × List Hash))
    (oid : Hash) :
    ∀ (ps : List Hash) (vm : VisitedMap) (tr : List Hash) (v : VisitedMap) (t2 : List Hash),
    (∀ p v1 t1 v2 u2, w p v1 t1 = Except.ok (v2, u2) →
      ∀ x, vmHas v2 x = true → vmHas v1 x = true ∨ ReachW store sh p x) →
    goParents w oid ps vm tr = Except.ok (v, t2) →
    ∀ x, vmHas v x = true → vmHas vm x = true ∨ ∃ q, q ∈ ps ∧ ReachW store sh q x := by
  intro ps
  induction ps with
  | nil =>
    intro vm tr v t2 _ h x hx
    simp only [goParents, Except.ok.injEq, Prod.mk.injEq] at h
    obtain ⟨hv, ht⟩ := h
    subst hv
    exact Or.inl hx
  | cons q ps ih =>
    intro vm tr v t2 hw h x hx
    simp only [goParents] at h
    by_cases hq : vmHas vm q = true
    · simp only [if_pos hq] at h
      rcases ih (vmPush vm q oid) tr v t2 hw h x hx with hx1 | ⟨q1, hq1, hr1⟩
      · rw [vmHas_vmPush] at hx1
        exact Or.inl hx1
      · exact Or.inr ⟨q1, List.mem_cons_of_mem _ hq1, hr1⟩
    · rw [if_neg hq] at h
      cases hw1 : w q vm tr with
      | error e => simp [hw1] at h
      | ok pr =>
        obtain ⟨v1, t1⟩ := pr
        simp only [hw1] at h
        have hfin : ∀ (u : VisitedMap), (vmHas u x = true → vmHas v1 x = true ∨ x = q) →
            goParents w oid ps (vmPush u q oid) t1 = Except.ok (v, t2) →
            vmHas vm x = true ∨ ∃ q1, q1 ∈ q :: ps ∧ ReachW store sh q1 x := by
          intro u hu hgo
          rcases ih (vmPush u q oid) t1 v t2 hw hgo x hx with hx1 | ⟨q1, hq1, hr1⟩
          · rw [vmHas_vmPush] at hx1
            rcases hu hx1 with hx2 | hx2
            · rcases hw q vm tr v1 t1 hw1 x hx2 with hx3 | hx3
              · exact Or.inl hx3
              · exact Or.inr ⟨q, List.mem_cons_self _ _, hx3⟩
            · subst hx2
              exact Or.inr ⟨x, List.mem_cons_self _ _, ReachW.refl x⟩
          · exact Or.inr ⟨q1, List.mem_cons_of_mem _ hq1, hr1⟩
        by_cases hq1 : vmHas v1 q = true
        · simp only [if_pos hq1] at h
          exact hfin v1 (fun hx1 => Or.inl hx1) h
        · simp only [if_neg hq1] at h
          refine hfin (vmSet v1 q) ?_ h
          intro hx1
          rw [vmHas_vmSet] at hx1
          by_cases hxq : x = q
          · exact Or.inr hxq
          · rw [if_neg hxq] at hx1
            exact Or.inl hx1

theorem walk_keys_sound (store : Store) (sh : List Hash) :
    ∀ (fuel : Nat) (oid : Hash) (vm : VisitedMap) (tr : List Hash) (v : VisitedMap)
      (t2 : List Hash),
    walk store sh fuel oid vm tr = Except.ok (v, t2) →
    ∀ x, vmHas v x = true → vmHas vm x = true ∨ ReachW store sh oid x := by
  intro fuel
  induction fuel with
  | zero =>
    intro oid vm tr v t2 h
    simp [walk] at h
  | succ f ih =>
    intro oid vm tr v t2 h x
    intro hx
    simp only [walk] at h
    cases hso : store oid with
    | none => simp [hso] at h
    | some obj =>
      cases obj with
      | tag target =>
        simp only [hso] at h
        rcases ih target vm tr v t2 h x hx with hx1 | hx1
        · exact Or.inl hx1
        · exact Or.inr (ReachW.trans (ReachW.tagStep (ReachW.refl oid) hso) hx1)
      | other kind => simp [hso] at h
      | commit parents =>
        simp only [hso] at h
        by_cases hsh : sh.contains oid = true
        · simp only [if_pos hsh, Except.ok.injEq, Prod.mk.injEq] at h
          obtain ⟨hv, _⟩ := h
          subst hv
          exact Or.inl hx
        · rw [if_neg hsh] at h
          rcases goParents_keys_sound store sh _ oid parents vm (tr ++ [oid]) v t2
            (fun p v1 t1 v2 u2 hcall => ih p v1 t1 v2 u2 hcall) h x hx with hx1 | ⟨q, hq, hr⟩
          · exact Or.inl hx1
          · exact Or.inr (ReachW.trans
              (ReachW.parent (ReachW.refl oid) hso (by simpa using hsh) hq) hr)

/-! ### Children accounting -/

/-- Number of occurrences of `c` in the `children` list recorded for `p`. -/
def childCount (vm : VisitedMap) (p c : Hash) : Nat :=
  List.count c ((vmGet vm p).getD [])

/-- Number of occurrences of `p` in the parent list of `c`'s commit object
    (`0` when `c` is not a commit in the store). -/
def parentMult (store : Store) (c p : Hash) : Nat :=
  match store c with
  | some (GitObj.commit ps) => List.count p ps
  | _ => 0

theorem childCount_vmSet_fresh {vm : VisitedMap} {h : Hash} (hh : vmHas vm h = false)
    (p c : Hash) : childCount (vmSet vm h) p c = childCount vm p c := by
  unfold childCount
  rw [vmGet_vmSet]
  by_cases hp : p = h
  · subst hp
    unfold vmHas at hh
    cases hg : vmGet vm p with
    | none => simp
    | some kids => rw [hg] at hh; simp at hh
  · rw [if_neg hp]

theorem childCount_vmPush_self {vm : VisitedMap} {q : Hash} (hq : vmHas vm q = true)
    (x c : Hash) :
    childCount (vmPush vm q x) q c = childCount vm q c + (if c = x then 1 else 0) := by
  unfold childCount
  rw [vmGet_vmPush, if_pos rfl]
  unfold vmHas at hq
  cases hg : vmGet vm q with
  | none => rw [hg] at hq; simp at hq
  | some kids =>
    show List.count c (kids ++ [x]) = List.count c kids + if c = x then 1 else 0
    rw [List.count_append]
    by_cases hc : c = x
    · subst hc; simp [List.count_singleton]
    · simp [List.count_singleton, hc]

theorem childCount_vmPush_other {q p : Hash} (hp : p ≠ q) (vm : VisitedMap) (x c : Hash) :
    childCount (vmPush vm q x) p c = childCount vm p c := by
  unfold childCount
  rw [vmGet_vmPush, if_neg hp]

theorem goParents_count (store : Store) (rank : Hash → Nat)
    (w : Hash → VisitedMap → List Hash → Except ErrKind (VisitedMap × List Hash))
    (oid : Hash) :
    ∀ (ps : List Hash) (vm : VisitedMap) (tr : List Hash) (v : VisitedMap) (t2 : List Hash),
    (∀ p v1 t1 v2 u2, w p v1 t1 = Except.ok (v2, u2) →
      ∃ d, u2 = t1 ++ d ∧ (∀ x, x ∈ d → rank x ≤ rank p) ∧
        ∀ pp c, childCount v2 pp c =
          childCount v1 pp c + List.count c d * parentMult store c pp) →
    goParents w oid ps vm tr = Except.ok (v, t2) →
    ∃ d, t2 = tr ++ d ∧ (∀ x, x ∈ d → ∃ q, q ∈ ps ∧ rank x ≤ rank q) ∧
      ∀ pp c, childCount v pp c =
        childCount vm pp c + List.count c d * parentMult store c pp +
          (if c = oid then List.count pp ps else 0) := by
  intro ps
  induction ps with
  | nil =>
    intro vm tr v t2 _ h
    simp only [goParents, Except.ok.injEq, Prod.mk.injEq] at h
    obtain ⟨hv, ht⟩ := h
    subst hv; subst ht
    exact ⟨[], by simp, by simp, fun pp c => by simp⟩
  | cons q ps ih =>
    intro vm tr v t2 hw h
    simp only [goParents] at h
    by_cases hq : vmHas vm q = true
    · simp only [if_pos hq] at h
      obtain ⟨d2, ht2, hrank2, heq2⟩ := ih (vmPush vm q oid) tr v t2 hw h
      refine ⟨d2, ht2, fun x hx => ?_, fun pp c => ?_⟩
      · obtain ⟨q1, hq1, hr1⟩ := hrank2 x hx
        exact ⟨q1, List.mem_cons_of_mem _ hq1, hr1⟩
      · rw [heq2 pp c]
        by_cases hpq : pp = q
        · subst hpq
          rw [childCount_vmPush_self hq]
          by_cases hc : c = oid
          · subst hc
            simp [List.count_cons]
            ring
          · simp [hc, List.count_cons, Ne.symm hc]
        · rw [childCount_vmPush_other hpq]
          by_cases hc : c = oid
          · subst hc
            simp [List.count_cons, hpq]
          · simp [hc]
    · rw [if_neg hq] at h
      cases hw1 : w q vm tr with
      | error e => simp [hw1] at h
      | ok pr =>
        obtain ⟨v1, t1⟩ := pr
        simp only [hw1] at h
        obtain ⟨d1, ht1, hrank1, heq1⟩ := hw q vm tr v1 t1 hw1
        have hnext : ∀ (u : VisitedMap), vmHas u q = true →
            (∀ pp c, childCount u pp c = childCount v1 pp c) →
            goParents w oid ps (vmPush u q oid) t1 = Except.ok (v, t2) →
            ∃ d, t2 = tr ++ d ∧ (∀ x, x ∈ d → ∃ q1, q1 ∈ q :: ps ∧ rank x ≤ rank q1) ∧
              ∀ pp c, childCount v pp c =
                childCount vm pp c + List.count c d * parentMult store c pp +
                  (if c = oid then List.count pp (q :: ps) else 0) := by
          intro u hu hcu hgo
          obtain ⟨d2, ht2, hrank2, heq2⟩ := ih (vmPush u q oid) t1 v t2 hw hgo
          refine ⟨d1 ++ d2, by rw [ht2, ht1, List.append_assoc], fun x hx => ?_, fun pp c => ?_⟩
          · rcases List.mem_append.mp hx with hx | hx
            · exact ⟨q, List.mem_cons_self _ _, hrank1 x hx⟩
            · obtain ⟨q1, hq1, hr1⟩ := hrank2 x hx
              exact ⟨q1, List.mem_cons_of_mem _ hq1, hr1⟩
          · rw [heq2 pp c, List.count_append]
            by_cases hpq : pp = q
            · subst hpq
              rw [childCount_vmPush_self hu, hcu, heq1]
              by_cases hc : c = oid
              · subst hc
                simp [List.count_cons]
                ring
              · simp [hc, List.count_cons, Ne.symm hc]
                ring
            · rw [childCount_vmPush_other hpq, hcu, heq1]
              by_cases hc : c = oid
              · subst hc
                simp [List.count_cons, hpq]
                ring
              · simp [hc]
                ring
        by_cases hq1 : vmHas v1 q = true
        · simp only [if_pos hq1] at h
          exact hnext v1 hq1 (fun pp c => rfl) h
        · simp only [if_neg hq1] at h
          refine hnext (vmSet v1 q) ?_ ?_ h
          · rw [vmHas_vmSet]; simp
          · intro pp c
            exact childCount_vmSet_fresh (by simpa using hq1) pp c

theorem walk_count (store : Store) (sh : List Hash) (rank : Hash → Nat)
    (hrc : ∀ h ps p, store h = some (GitObj.commit ps) → p ∈ ps → rank p < rank h)
    (hrt : ∀ h t, store h = some (GitObj.tag t) → rank t < rank h) :
    ∀ (fuel : Nat) (oid : Hash) (vm : VisitedMap) (tr : List Hash) (v : VisitedMap)
      (t2 : List Hash),
    walk store sh fuel oid vm tr = Except.ok (v, t2) →
    ∃ d, t2 = tr ++ d ∧ (∀ x, x ∈ d → rank x ≤ rank oid) ∧
      ∀ pp c, childCount v pp c =
        childCount vm pp c + List.count c d * parentMult store c pp := by
  intro fuel
  induction fuel with
  | zero =>
    intro oid vm tr v t2 h
    simp [walk] at h
  | succ f ih =>
    intro oid vm tr v t2 h
    simp only [walk] at h
    cases hso : store oid with
    | none => simp [hso] at h
    | some obj =>
      cases obj with
      | tag target =>
        simp only [hso] at h
        obtain ⟨d, ht, hrank, heq⟩ := ih target vm tr v t2 h
        exact ⟨d, ht, fun x hx =>
          le_trans (hrank x hx) (le_of_lt (hrt oid target hso)), heq⟩
      | other kind => simp [hso] at h
      | commit parents =>
        simp only [hso] at h
        by_cases hsh : sh.contains oid = true
        · simp only [if_pos hsh, Except.ok.injEq, Prod.mk.injEq] at h
          obtain ⟨hv, ht⟩ := h
          subst hv; subst ht
          exact ⟨[], by simp, by simp, fun pp c => by simp⟩
        · rw [if_neg hsh] at h
          obtain ⟨dg, htg, hrankg, heqg⟩ := goParents_count store rank _ oid parents vm
            (tr ++ [oid]) v t2 (fun p v1 t1 v2 u2 hcall => ih p v1 t1 v2 u2 hcall) h
          refine ⟨oid :: dg, ?_, fun x hx => ?_, fun pp c => ?_⟩
          · rw [htg, List.append_assoc]
            rfl
          · rcases List.mem_cons.mp hx with hx | hx
            · subst hx; exact le_refl _
            · obtain ⟨q, hqmem, hr⟩ := hrankg x hx
              exact le_of_lt (lt_of_le_of_lt hr (hrc oid parents q hso hqmem))
          · rw [heqg pp c]
            have hmult : parentMult store oid pp = List.count pp parents := by
              unfold parentMult
              rw [hso]
            by_cases hc : c = oid
            · subst hc
              rw [List.count_cons]
              simp [hmult]
              ring
            · rw [List.count_cons]
              simp [hc, Ne.symm hc]

theorem walkAll_count (store : Store) (sh : List Hash) (rank : Hash → Nat)
    (hrc : ∀ h ps p, store h = some (GitObj.commit ps) → p ∈ ps → rank p < rank h)
    (hrt : ∀ h t, store h = some (GitObj.tag t) → rank t < rank h) (fuel : Nat) :
    ∀ (starts : List Hash) (vm : VisitedMap) (tr : List Hash) (v : VisitedMap)
      (t2 : List Hash),
    walkAll store sh fuel starts vm tr = Except.ok (v, t2) →
    (∀ s, s ∈ starts → vmHas vm s = false) →
    starts.Nodup →
    (∀ s t, s ∈ starts → t ∈ starts → s ≠ t → ¬ ReachW store sh s t) →
    ∃ d, t2 = tr ++ d ∧
      ∀ pp c, childCount v pp c =
        childCount vm pp c + List.count c d * parentMult store c pp := by
  intro starts
  induction starts with
  | nil =>
    intro vm tr v t2 h _ _ _
    simp only [walkAll, Except.ok.injEq, Prod.mk.injEq] at h
    obtain ⟨hv, ht⟩ := h
    subst hv; subst ht
    exact ⟨[], by simp, fun pp c => by simp⟩
  | cons s rest ih =>
    intro vm tr v t2 h hfresh hnodup hindep
    simp only [walkAll] at h
    cases hw1 : walk store sh fuel s (vmSet vm s) tr with
    | error e => simp [hw1] at h
    | ok pr =>
      obtain ⟨v1, t1⟩ := pr
      simp only [hw1] at h
      have hs_fresh : vmHas vm s = false := hfresh s (List.mem_cons_self _ _)
      have hs_nin : s ∉ rest := (List.nodup_cons.mp hnodup).1
      obtain ⟨d1, ht1, _, heq1⟩ := walk_count store sh rank hrc hrt fuel s (vmSet vm s)
        tr v1 t1 hw1
      have hfresh1 : ∀ t, t ∈ rest → vmHas v1 t = false := by
        intro t ht
        cases hvt : vmHas v1 t with
        | false => rfl
        | true =>
          exfalso
          have hts : t ≠ s := fun hts => hs_nin (hts ▸ ht)
          rcases walk_keys_sound store sh fuel s (vmSet vm s) tr v1 t1 hw1 t hvt with
            hx | hx
          · rw [vmHas_vmSet, if_neg hts] at hx
            rw [hfresh t (List.mem_cons_of_mem _ ht)] at hx
            exact Bool.false_ne_true hx
          · exact hindep s t (List.mem_cons_self _ _) (List.mem_cons_of_mem _ ht)
              (fun hst => hts hst.symm) hx
      obtain ⟨d2, ht2, heq2⟩ := ih v1 t1 v t2 h hfresh1 (List.nodup_cons.mp hnodup).2
        (fun a b ha hb hab => hindep a b (List.mem_cons_of_mem _ ha)
          (List.mem_cons_of_mem _ hb) hab)
      refine ⟨d1 ++ d2, by rw [ht2, ht1, List.append_assoc], fun pp c => ?_⟩
      rw [heq2 pp c, heq1 pp c, childCount_vmSet_fresh hs_fresh, List.count_append]
      ring

/-! ### Trace multiplicity: no duplicate expansion -/

theorem goParents_nodup (rank : Hash → Nat)
    (w : Hash → VisitedMap → List Hash → Except ErrKind (VisitedMap × List Hash))
    (oid : Hash) :
    ∀ (ps : List Hash) (vm : VisitedMap) (tr : List Hash) (v : VisitedMap) (t2 : List Hash),
    (∀ p v1 t1 v2 u2, w p v1 t1 = Except.ok (v2, u2) →
      vmExt v1 v2 ∧ ∃ d, u2 = t1 ++ d) →
    (∀ p v1 t1 v2 u2, w p v1 t1 = Except.ok (v2, u2) →
      ∃ d, u2 = t1 ++ d ∧ d.Nodup ∧ (∀ x, x ∈ d → rank x ≤ rank p) ∧
        (∀ x, x ∈ d → x = p ∨ vmHas v1 x = false) ∧
        (∀ x, x ∈ d → x ≠ p → vmHas v2 x = true)) →
    goParents w oid ps vm tr = Except.ok (v, t2) →
    ∃ d, t2 = tr ++ d ∧ d.Nodup ∧ (∀ x, x ∈ d → ∃ q, q ∈ ps ∧ rank x ≤ rank q) ∧
      (∀ x, x ∈ d → vmHas vm x = false) ∧ (∀ x, x ∈ d → vmHas v x = true) := by
  intro ps
  induction ps with
  | nil =>
    intro vm tr v t2 _ _ h
    simp only [goParents, Except.ok.injEq, Prod.mk.injEq] at h
    obtain ⟨hv, ht⟩ := h
    subst hv; subst ht
    exact ⟨[], by simp, by simp, by simp, by simp, by simp⟩
  | cons q ps ih =>
    intro vm tr v t2 hwe hwn h
    simp only [goParents] at h
    by_cases hq : vmHas vm q = true
    · simp only [if_pos hq] at h
      obtain ⟨d2, ht2, hnd2, hrk2, hfr2, hin2⟩ := ih (vmPush vm q oid) tr v t2 hwe hwn h
      refine ⟨d2, ht2, hnd2, fun x hx => ?_, fun x hx => ?_, hin2⟩
      · obtain ⟨q1, hq1, hr1⟩ := hrk2 x hx
        exact ⟨q1, List.mem_cons_of_mem _ hq1, hr1⟩
      · have := hfr2 x hx
        rwa [vmHas_vmPush] at this
    · rw [if_neg hq] at h
      cases hw1 : w q vm tr with
      | error e => simp [hw1] at h
      | ok pr =>
        obtain ⟨v1, t1⟩ := pr
        simp only [hw1] at h
        obtain ⟨d1, ht1, hnd1, hrk1, hfr1, hin1⟩ := hwn q vm tr v1 t1 hw1
        have hext1 : vmExt vm v1 := (hwe q vm tr v1 t1 hw1).1
        have hnext : ∀ (u : VisitedMap), vmHas u q = true →
            (∀ x, vmHas v1 x = true → vmHas u x = true) →
            goParents w oid ps (vmPush u q oid) t1 = Except.ok (v, t2) →
            ∃ d, t2 = tr ++ d ∧ d.Nodup ∧
              (∀ x, x ∈ d → ∃ q1, q1 ∈ q :: ps ∧ rank x ≤ rank q1) ∧
              (∀ x, x ∈ d → vmHas vm x = false) ∧ (∀ x, x ∈ d → vmHas v x = true) := by
          intro u hu humono hgo
          obtain ⟨d2, ht2, hnd2, hrk2, hfr2, hin2⟩ := ih (vmPush u q oid) t1 v t2 hwe hwn hgo
          have hd1has : ∀ x, x ∈ d1 → vmHas (vmPush u q oid) x = true := by
            intro x hx
            rw [vmHas_vmPush]
            by_cases hxq : x = q
            · subst hxq; exact hu
            · exact humono x (hin1 x hx hxq)
          have hext2 : vmExt (vmPush u q oid) v :=
            (goParents_ext w oid ps (vmPush u q oid) t1 v t2 hwe hgo).1
          refine ⟨d1 ++ d2, by rw [ht2, ht1, List.append_assoc], ?_, fun x hx => ?_,
            fun x hx => ?_, fun x hx => ?_⟩
          · rw [List.nodup_append]
            refine ⟨hnd1, hnd2, fun x hx1 hx2 => ?_⟩
            have h1 := hd1has x hx1
            have h2 := hfr2 x hx2
            rw [h1] at h2
            exact Bool.false_ne_true h2.symm
          · rcases List.mem_append.mp hx with hx | hx
            · exact ⟨q, List.mem_cons_self _ _, hrk1 x hx⟩
            · obtain ⟨q1, hq1, hr1⟩ := hrk2 x hx
              exact ⟨q1, List.mem_cons_of_mem _ hq1, hr1⟩
          · rcases List.mem_append.mp hx with hx | hx
            · rcases hfr1 x hx with hxq | hxf
              · subst hxq; simpa using hq
              · exact hxf
            · have hf2 := hfr2 x hx
              cases hvx : vmHas vm x with
              | false => rfl
              | true =>
                exfalso
                have : vmHas (vmPush u q oid) x = true := by
                  rw [vmHas_vmPush]
                  exact humono x (vmHas_of_vmExt hext1 hvx)
                rw [this] at hf2
                exact Bool.false_ne_true hf2.symm
          · rcases List.mem_append.mp hx with hx | hx
            · exact vmHas_of_vmExt hext2 (hd1has x hx)
            · exact hin2 x hx
        by_cases hq1 : vmHas v1 q = true
        · simp only [if_pos hq1] at h
          exact hnext v1 hq1 (fun x hx => hx) h
        · simp only [if_neg hq1] at h
          refine hnext (vmSet v1 q) (by rw [vmHas_vmSet]; simp) ?_ h
          intro x hx
          rw [vmHas_vmSet]
          by_cases hxq : x = q
          · simp [hxq]
          · rw [if_neg hxq]; exact hx

theorem walk_nodup (store : Store) (sh : List Hash) (rank : Hash → Nat)
    (hnotag : ∀ h t, store h ≠ some (GitObj.tag t))
    (hrc : ∀ h ps p, store h = some (GitObj.commit ps) → p ∈ ps → rank p < rank h) :
    ∀ (fuel : Nat) (oid : Hash) (vm : VisitedMap) (tr : List Hash) (v : VisitedMap)
      (t2 : List Hash),
    walk store sh fuel oid vm tr = Except.ok (v, t2) →
    ∃ d, t2 = tr ++ d ∧ d.Nodup ∧ (∀ x, x ∈ d → rank x ≤ rank oid) ∧
      (∀ x, x ∈ d → x = oid ∨ vmHas vm x = false) ∧
      (∀ x, x ∈ d → x ≠ oid → vmHas v x = true) := by
  intro fuel
  induction fuel with
  | zero =>
    intro oid vm tr v t2 h
    simp [walk] at h
  | succ f ih =>
    intro oid vm tr v t2 h
    simp only [walk] at h
    cases hso : store oid with
    | none => simp [hso] at h
    | some obj =>
      cases obj with
      | tag target => exact absurd hso (hnotag oid target)
      | other kind => simp [hso] at h
      | commit parents =>
        simp only [hso] at h
        by_cases hsh : sh.contains oid = true
        · simp only [if_pos hsh, Except.ok.injEq, Prod.mk.injEq] at h
          obtain ⟨hv, ht⟩ := h
          subst hv; subst ht
          exact ⟨[], by simp, by simp, by simp, by simp, by simp⟩
        · rw [if_neg hsh] at h
          obtain ⟨dg, htg, hndg, hrkg, hfrg, hing⟩ := goParents_nodup rank _ oid parents
            vm (tr ++ [oid]) v t2
            (fun p v1 t1 v2 u2 hcall => walk_ext store sh f p v1 t1 v2 u2 hcall)
            (fun p v1 t1 v2 u2 hcall => ih p v1 t1 v2 u2 hcall) h
          have hoid_nin : oid ∉ dg := by
            intro hmem
            obtain ⟨q, hqmem, hr⟩ := hrkg oid hmem
            exact absurd (lt_of_le_of_lt hr (hrc oid parents q hso hqmem)) (lt_irrefl _)
          refine ⟨oid :: dg, ?_, ?_, fun x hx => ?_, fun x hx => ?_, fun x hx hxo => ?_⟩
          · rw [htg, List.append_assoc]
            rfl
          · exact List.nodup_cons.mpr ⟨hoid_nin, hndg⟩
          · rcases List.mem_cons.mp hx with hx | hx
            · subst hx; exact le_refl _
            · obtain ⟨q, hqmem, hr⟩ := hrkg x hx
              exact le_of_lt (lt_of_le_of_lt hr (hrc oid parents q hso hqmem))
          · rcases List.mem_cons.mp hx with hx | hx
            · exact Or.inl hx
            · exact Or.inr (hfrg x hx)
          · rcases List.mem_cons.mp hx with hx | hx
            · exact absurd hx hxo
            · exact hing x hx

theorem walkAll_trace_le (store : Store) (sh : List Hash) (rank : Hash → Nat)
    (hnotag : ∀ h t, store h ≠ some (GitObj.tag t))
    (hrc : ∀ h ps p, store h = some (GitObj.commit ps) → p ∈ ps → rank p < rank h)
    (fuel : Nat) :
    ∀ (starts : List Hash) (vm : VisitedMap) (tr : List Hash) (v : VisitedMap)
      (t2 : List Hash) (c : Hash),
    walkAll store sh fuel starts vm tr = Except.ok (v, t2) →
    c ∉ starts →
    List.count c t2 ≤ List.count c tr + (if vmHas vm c = true then 0 else 1) := by
  intro starts
  induction starts with
  | nil =>
    intro vm tr v t2 c h _
    simp only [walkAll, Except.ok.injEq, Prod.mk.injEq] at h
    obtain ⟨_, ht⟩ := h
    subst ht
    exact Nat.le_add_right _ _
  | cons s rest ih =>
    intro vm tr v t2 c h hc
    have hcs : c ≠ s := fun hcs => hc (hcs ▸ List.mem_cons_self _ _)
    have hcr : c ∉ rest := fun hcr => hc (List.mem_cons_of_mem _ hcr)
    simp only [walkAll] at h
    cases hw1 : walk store sh fuel s (vmSet vm s) tr with
    | error e => simp [hw1] at h
    | ok pr =>
      obtain ⟨v1, t1⟩ := pr
      simp only [hw1] at h
      obtain ⟨d1, ht1, hnd1, _, hfr1, hin1⟩ :=
        walk_nodup store sh rank hnotag hrc fuel s (vmSet vm s) tr v1 t1 hw1
      have hsetc : vmHas (vmSet vm s) c = vmHas vm c := by
        rw [vmHas_vmSet, if_neg hcs]
      by_cases hvm : vmHas vm c = true
      · have hcd1 : c ∉ d1 := by
          intro hmem
          rcases hfr1 c hmem with hceq | hcf
          · exact hcs hceq
          · rw [hsetc, hvm] at hcf
            exact Bool.false_ne_true hcf.symm
        have hv1c : vmHas v1 c = true := by
          refine vmHas_of_vmExt (walk_ext store sh fuel s (vmSet vm s) tr v1 t1 hw1).1 ?_
          rw [hsetc]; exact hvm
        have hle := ih v1 t1 v t2 c h hcr
        have hi1 : (if vmHas v1 c = true then 0 else 1) = 0 := by simp [hv1c]
        have hi2 : (if vmHas vm c = true then 0 else 1) = 0 := by simp [hvm]
        have ht1c : List.count c t1 = List.count c tr := by
          rw [ht1, List.count_append, List.count_eq_zero.mpr hcd1, Nat.add_zero]
        rw [hi1, ht1c] at hle
        rw [hi2]
        omega
      · have hi2 : (if vmHas vm c = true then 0 else 1) = 1 := by simp [hvm]
        rw [hi2]
        have hle := ih v1 t1 v t2 c h hcr
        have hd1le : List.count c d1 ≤ 1 := List.nodup_iff_count_le_one.mp hnd1 c
        have ht1c : List.count c t1 = List.count c tr + List.count c d1 := by
          rw [ht1, List.count_append]
        by_cases hv1c : vmHas v1 c = true
        · have hi1 : (if vmHas v1 c = true then 0 else 1) = 0 := by simp [hv1c]
          rw [hi1, ht1c] at hle
          omega
        · have hi1 : (if vmHas v1 c = true then 0 else 1) = 1 := by simp [hv1c]
          have hcd1 : c ∉ d1 := by
            intro hmem
            exact hv1c (hin1 c hmem hcs)
          rw [hi1, ht1c, List.count_eq_zero.mpr hcd1] at hle
          omega

/-! ### Concrete stores for counterexamples and witnesses -/

/-- Linear history `a ← b ← c`. -/
def storeLin : Store := fun h =>
  if h = "c" then some (GitObj.commit ["b"])
  else if h = "b" then some (GitObj.commit ["a"])
  else if h = "a" then some (GitObj.commit [])
  else none

/-- Topological rank for `storeLin`. -/
def rankLin : Hash → Nat := fun h =>
  if h = "c" then 2 else if h = "b" then 1 else 0

/-- Annotated tag `t` pointing at the root commit `a`. -/
def storeTag : Store := fun h =>
  if h = "t" then some (GitObj.tag "a")
  else if h = "a" then some (GitObj.commit [])
  else none

/-- A store holding a non-commit, non-tag object `x` and a tag `t` pointing
    at it. -/
def storeBlob : Store := fun h =>
  if h = "x" then some (GitObj.other "blob")
  else if h = "t" then some (GitObj.tag "x")
  else none

/-- A shallow-truncated commit `s` whose payload still records parent `p`. -/
def storeShallow : Store := fun h =>
  if h = "s" then some (GitObj.commit ["p"])
  else if h = "p" then some (GitObj.commit [])
  else none

/-! ### Claim theorems -/

/-- C1, counterexample.  With a starting ref resolving to annotated tag `t`
    (target: root commit `a`), the returned map is exactly `{t: {children: []}}`:
    the tag hash IS a key of the result, and the target commit `a` is NOT a
    key — both contrary to the claim, because the start loop executes
    `visited[oid] = {children: []}` on the tag hash before walking it, while
    nothing ever inserts the dereferenced target itself. -/
theorem C1_counterexample :
    listCommitsCore true true (fun r => if r = "v1" then some "t" else none)
        storeTag [] ["v1"] [] 5 = Except.ok [("t", [])] ∧
    vmHas [("t", [])] "t" = true ∧ vmHas [("t", [])] "a" = false :=
  ⟨rfl, rfl, rfl⟩

/-- C1 (amended): when a starting hash `t` holds an annotated tag targeting
    `a`, the start loop binds `t` itself to `{children: []}` (so the tag hash
    is a key of the result), and the expansion performed is exactly the
    expansion of the target `a` from that state — the target's ancestry is
    walked as if `a` were the start, but the start-entry key is `t`, and `a`
    itself becomes a key only if some walked commit names it as a parent. -/
theorem C1_tag_start (store : Store) (sh : List Hash) (fuel : Nat) (t a : Hash)
    (rest : List Hash) (vm : VisitedMap) (tr : List Hash)
    (hso : store t = some (GitObj.tag a)) :
    vmGet (vmSet vm t) t = some [] ∧
    walkAll store sh (fuel + 1) (t :: rest) vm tr =
      (match walk store sh fuel a (vmSet vm t) tr with
      | Except.error e => Except.error e
      | Except.ok (v, u) => walkAll store sh (fuel + 1) rest v u) := by
  constructor
  · rw [vmGet_vmSet, if_pos rfl]
  · simp only [walkAll, walk, hso]

/-- C1 witness: the amended theorem applied to the concrete tag store. -/
theorem C1_tag_start_witness :
    storeTag "t" = some (GitObj.tag "a") ∧
    vmGet (vmSet [] "t") "t" = some [] ∧
    walkAll storeTag [] 5 ["t"] [] [] =
      (match walk storeTag [] 4 "a" (vmSet [] "t") [] with
      | Except.error e => Except.error e
      | Except.ok (v, u) => walkAll storeTag [] 5 [] v u) :=
  ⟨rfl, (C1_tag_start storeTag [] 4 "t" "a" [] [] [] rfl).1,
    (C1_tag_start storeTag [] 4 "t" "a" [] [] [] rfl).2⟩

/-- C4, counterexample.  One invocation with starting set `{c, b}` (where `b`
    is an ancestor of `c` in `storeLin`) first reaches the state in which
    `b ↦ {children: ["c"]}` (that is exactly the state after the prefix
    `["c"]`, through which the full run factors by definition of the start
    loop), and ends with `b ↦ {children: []}`: the record bound to `b` was
    replaced and its `children` entry `"c"` was removed, so the VisitedMap
    did not grow monotonically. -/
theorem C4_counterexample :
    walkAll storeLin [] 9 ["c"] [] [] =
      Except.ok ([("c", []), ("a", ["b"]), ("b", ["c"])], ["c", "b", "a"]) ∧
    walkAll storeLin [] 9 ["c", "b"] [] [] =
      Except.ok ([("c", []), ("a", ["b", "b"]), ("b", [])], ["c", "b", "a", "b"]) ∧
    vmGet [("c", []), ("a", ["b"]), ("b", ["c"])] "b" = some ["c"] ∧
    vmGet [("c", []), ("a", ["b", "b"]), ("b", [])] "b" = some [] :=
  ⟨rfl, rfl, rfl, rfl⟩

/-- C4 (amended): within a single `walk` expansion the VisitedMap does grow
    monotonically — an existing record is only ever extended, never replaced,
    and children are never removed; and every starting hash is bound to
    `{children: []}` before its own expansion begins.  The monotonicity fails
    only at the start loop, whose unconditional `visited[oid] = {children: []}`
    replaces a record the hash may already have acquired. -/
theorem C4_walk_monotone (store : Store) (sh : List Hash) (fuel : Nat) (oid : Hash)
    (rest : List Hash) (vm : VisitedMap) (tr : List Hash) (v : VisitedMap)
    (t2 : List Hash)
    (h : walk store sh fuel oid vm tr = Except.ok (v, t2)) :
    (∀ x kids, vmGet vm x = some kids → ∃ more, vmGet v x = some (kids ++ more)) ∧
    vmGet (vmSet vm oid) oid = some [] ∧
    walkAll store sh fuel (oid :: rest) vm tr =
      (match walk store sh fuel oid (vmSet vm oid) tr with
      | Except.error e => Except.error e
      | Except.ok (v1, u1) => walkAll store sh fuel rest v1 u1) := by
  refine ⟨(walk_ext store sh fuel oid vm tr v t2 h).1, ?_, ?_⟩
  · rw [vmGet_vmSet, if_pos rfl]
  · simp only [walkAll]

/-- C4 witness: the record of `"z"` survives, only extended, through a
    concrete successful walk. -/
theorem C4_walk_monotone_witness :
    ∃ more, vmGet [("z", ["w"]), ("a", ["b"])] "z" = some (["w"] ++ more) :=
  (C4_walk_monotone storeLin [] 9 "b" [] [("z", ["w"])] [] [("z", ["w"]), ("a", ["b"])]
    ["b", "a"] rfl).1 "z" ["w"] rfl

/-- C5 (confirmed): a hash `S` in the shallow boundary is never expanded: for
    any parent payload `ps` the walk of `S` returns the visited map and trace
    unchanged (no parent read, no expansion recorded), and a walk started at
    `S` returns exactly `{S: {children: []}}` — any `P ≠ S` (in particular a
    recorded parent) is not a key. -/
theorem C5_shallow_stop (store : Store) (sh : List Hash) (fuel : Nat) (S : Hash)
    (ps : List Hash) (vm : VisitedMap) (tr : List Hash)
    (hso : store S = some (GitObj.commit ps))
    (hsh : sh.contains S = true) :
    walk store sh (fuel + 1) S vm tr = Except.ok (vm, tr) ∧
    walkAll store sh (fuel + 1) [S] [] [] = Except.ok ([(S, [])], []) ∧
    (∀ P, P ≠ S → vmHas [(S, [])] P = false) := by
  refine ⟨?_, ?_, ?_⟩
  · simp only [walk, hso, if_pos hsh]
  · simp only [walkAll, walk, hso, if_pos hsh]
    rfl
  · intro P hP
    unfold vmHas vmGet
    rw [if_neg (fun q => hP q.symm)]
    rfl

/-- C5 witness: the shallow commit `s` of `storeShallow`, whose payload
    records parent `p`. -/
theorem C5_shallow_stop_witness :
    walk storeShallow ["s"] 5 "s" [("q", ["r"])] ["z"] =
      Except.ok ([("q", ["r"])], ["z"]) ∧
    walkAll storeShallow ["s"] 5 ["s"] [] [] = Except.ok ([("s", [])], []) ∧
    vmHas [("s", [])] "p" = false := by
  have h := C5_shallow_stop storeShallow ["s"] 4 "s" ["p"] [("q", ["r"])] ["z"] rfl rfl
  exact ⟨h.1, h.2.1, h.2.2 "p" (by decide)⟩

/-- C6 (confirmed): reachability completeness — every commit `x` transitively
    reachable from a starting hash `s` via parent edges of non-shallow
    commits is a key of the successful walk's result. -/
theorem C6_reach_complete (store : Store) (sh : List Hash) (fuel : Nat)
    (starts : List Hash) (v : VisitedMap) (t2 : List Hash) (s x : Hash)
    (hrun : walkAll store sh fuel starts [] [] = Except.ok (v, t2))
    (hs : s ∈ starts) (hr : Reaches store sh s x) :
    vmHas v x = true :=
  walkAll_reach_has store sh fuel starts v t2 s x hrun hs hr

/-- C6 witness: in the linear store, the root `a` (two parent edges away from
    the start `c`) is a key of the result. -/
theorem C6_reach_complete_witness :
    vmHas [("c", []), ("a", ["b"]), ("b", ["c"])] "a" = true := by
  have r2 : Reaches storeLin [] "c" "b" :=
    @Reaches.parent storeLin [] "c" "c" ["b"] "b" (Reaches.refl "c") rfl rfl (by decide)
  have r3 : Reaches storeLin [] "c" "a" :=
    @Reaches.parent storeLin [] "c" "b" ["a"] "a" r2 rfl rfl (by decide)
  exact C6_reach_complete storeLin [] 9 ["c"] [("c", []), ("a", ["b"]), ("b", ["c"])]
    ["c", "b", "a"] "c" "a" rfl (by decide) r3

/-- C2, counterexample.  In `storeLin` with starting set `{c, b}` (iterated in
    that order), the hash `b` — a non-shallow, non-tag commit — appears twice
    in the expansion trace: once expanded as an ancestor during the walk of
    `c`, and once more because the start loop walks every starting hash
    unconditionally, with no visited check.  So it is not expanded exactly
    once. -/
theorem C2_counterexample :
    walkAll storeLin [] 9 ["c", "b"] [] [] =
      Except.ok ([("c", []), ("a", ["b", "b"]), ("b", [])], ["c", "b", "a", "b"]) ∧
    List.count "b" ["c", "b", "a", "b"] = 2 ∧
    storeLin "b" = some (GitObj.commit ["a"]) ∧
    ([] : List Hash).contains "b" = false :=
  ⟨rfl, rfl, rfl, rfl⟩

/-- C2 (amended): in a tag-free store whose parent graph admits a rank
    function (the acyclicity git guarantees), every hash that is NOT itself a
    starting hash is expanded at most once regardless of how many distinct
    children reference it, and exactly once when it is a non-shallow commit
    reachable from a starting hash; a starting hash, by contrast, is walked
    unconditionally by the start loop and is therefore expanded twice when it
    is also an ancestor of an earlier starting hash. -/
theorem C2_expand_once (store : Store) (sh : List Hash) (rank : Hash → Nat)
    (fuel : Nat) (starts : List Hash) (v : VisitedMap) (t2 : List Hash) (c : Hash)
    (hnotag : ∀ h t, store h ≠ some (GitObj.tag t))
    (hrc : ∀ h ps p, store h = some (GitObj.commit ps) → p ∈ ps → rank p < rank h)
    (hrun : walkAll store sh fuel starts [] [] = Except.ok (v, t2))
    (hc : c ∉ starts) :
    List.count c t2 ≤ 1 ∧
    (∀ s ps, s ∈ starts → Reaches store sh s c →
      store c = some (GitObj.commit ps) → sh.contains c = false →
      List.count c t2 = 1) := by
  have hle := walkAll_trace_le store sh rank hnotag hrc fuel starts [] [] v t2 c hrun hc
  have h0 : vmHas ([] : VisitedMap) c = false := rfl
  rw [h0] at hle
  simp only [List.count_nil, Bool.false_eq_true, if_false, Nat.zero_add] at hle
  refine ⟨hle, ?_⟩
  intro s ps hs hreach hsoc hshc
  have hkey : vmHas v c = true :=
    walkAll_reach_has store sh fuel starts v t2 s c hrun hs hreach
  have hkt : KeysTraced store sh v t2 :=
    walkAll_keysTraced store sh fuel starts [] [] v t2 hrun
      (by intro x xs hx; simp [vmHas, vmGet] at hx)
  have hmem : c ∈ t2 := hkt c ps hkey hsoc hshc
  have hpos : 0 < List.count c t2 := List.count_pos_iff.mpr hmem
  omega

/-- C2 witness: in the linear store started at `c` only, the ancestor `a` is
    expanded exactly once. -/
theorem C2_expand_once_witness :
    List.count "a" ["c", "b", "a"] = 1 := by
  have r2 : Reaches storeLin [] "c" "b" :=
    @Reaches.parent storeLin [] "c" "c" ["b"] "b" (Reaches.refl "c") rfl rfl (by decide)
  have r3 : Reaches storeLin [] "c" "a" :=
    @Reaches.parent storeLin [] "c" "b" ["a"] "a" r2 rfl rfl (by decide)
  refine (C2_expand_once storeLin [] rankLin 9 ["c"]
      [("c", []), ("a", ["b"]), ("b", ["c"])] ["c", "b", "a"] "a" ?_ ?_ rfl
      (by decide)).2 "c" [] (by decide) r3 rfl rfl
  · intro h t hcontra
    unfold storeLin at hcontra
    split_ifs at hcontra <;> simp at hcontra
  · intro h ps p hso hp
    unfold storeLin at hso
    split_ifs at hso with h1 h2 h3
    · simp only [Option.some.injEq, GitObj.commit.injEq] at hso
      subst h1
      rw [← hso] at hp
      simp only [List.mem_singleton] at hp
      subst hp
      decide
    · simp only [Option.some.injEq, GitObj.commit.injEq] at hso
      subst h2
      rw [← hso] at hp
      simp only [List.mem_singleton] at hp
      subst hp
      decide
    · simp only [Option.some.injEq, GitObj.commit.injEq] at hso
      rw [← hso] at hp
      simp at hp

/-- C3, counterexample.  In `storeLin` with starting set `{c, b}`, the final
    record of parent `a` lists the child `b` twice even though exactly one
    distinct child (`b`) names `a` in its parent list — the re-walk of the
    starting hash `b` pushes a duplicate edge — and the child `c` that names
    `b` was lost from `b`'s record.  So children lists are neither
    duplicate-free nor loss-free as claimed. -/
theorem C3_counterexample :
    walkAll storeLin [] 9 ["c", "b"] [] [] =
      Except.ok ([("c", []), ("a", ["b", "b"]), ("b", [])], ["c", "b", "a", "b"]) ∧
    vmGet [("c", []), ("a", ["b", "b"]), ("b", [])] "a" = some ["b", "b"] ∧
    List.count "b" ["b", "b"] = 2 ∧
    storeLin "b" = some (GitObj.commit ["a"]) ∧
    vmGet [("c", []), ("a", ["b", "b"]), ("b", [])] "b" = some [] :=
  ⟨rfl, rfl, rfl, rfl, rfl⟩

/-- C3 (amended): in the result of a successful walk, the number of
    occurrences of a child hash `c` in the `children` list of a parent `p`
    equals (number of expansions of `c`) × (number of times `c`'s parent list
    names `p`); when moreover the starting hashes are distinct and none is
    walk-reachable from another (so no start-loop re-expansion occurs), every
    hash that is not a starting hash is expanded at most once, recovering
    "exactly once per distinct child that names that parent".  The
    counterexample shows the equation's necessity: a re-expanded starting
    hash contributes a second occurrence and loses its own recorded children. -/
theorem C3_children_exact (store : Store) (sh : List Hash) (rank : Hash → Nat)
    (fuel : Nat) (starts : List Hash) (v : VisitedMap) (t2 : List Hash)
    (hnotag : ∀ h t, store h ≠ some (GitObj.tag t))
    (hrc : ∀ h ps p, store h = some (GitObj.commit ps) → p ∈ ps → rank p < rank h)
    (hnd : starts.Nodup)
    (hindep : ∀ s t, s ∈ starts → t ∈ starts → s ≠ t → ¬ ReachW store sh s t)
    (hrun : walkAll store sh fuel starts [] [] = Except.ok (v, t2)) :
    (∀ p c kids, vmGet v p = some kids →
      List.count c kids = List.count c t2 * parentMult store c p) ∧
    (∀ c, c ∉ starts → List.count c t2 ≤ 1) := by
  have hrt : ∀ h t, store h = some (GitObj.tag t) → rank t < rank h :=
    fun h t hso => absurd hso (hnotag h t)
  obtain ⟨d, hd, heq⟩ := walkAll_count store sh rank hrc hrt fuel starts [] [] v t2
    hrun (fun s _ => rfl) hnd hindep
  have hdt : d = t2 := by rw [hd]; rfl
  constructor
  · intro p c kids hget
    have := heq p c
    unfold childCount at this
    rw [hget] at this
    simp only [Option.getD_some] at this
    rw [this]
    have h0 : vmGet ([] : VisitedMap) p = none := rfl
    rw [h0]
    simp only [Option.getD_none, List.count_nil, Nat.zero_add]
    rw [hdt]
  · intro c hc
    have hle := walkAll_trace_le store sh rank hnotag hrc fuel starts [] [] v t2 c hrun hc
    have h0 : vmHas ([] : VisitedMap) c = false := rfl
    rw [h0] at hle
    simpa using hle

/-- C3 witness: in the single-start linear run, parent `a` records child `b`
    exactly `count b trace × count a parents(b) = 1` time. -/
theorem C3_children_exact_witness :
    List.count "b" ["b"] = List.count "b" ["c", "b", "a"] * parentMult storeLin "b" "a" := by
  refine (C3_children_exact storeLin [] rankLin 9 ["c"]
      [("c", []), ("a", ["b"]), ("b", ["c"])] ["c", "b", "a"] ?_ ?_ (by decide) ?_
      rfl).1 "a" "b" ["b"] rfl
  · intro h t hcontra
    unfold storeLin at hcontra
    split_ifs at hcontra <;> simp at hcontra
  · intro h ps p hso hp
    unfold storeLin at hso
    split_ifs at hso with h1 h2 h3
    · simp only [Option.some.injEq, GitObj.commit.injEq] at hso
      subst h1
      rw [← hso] at hp
      simp only [List.mem_singleton] at hp
      subst hp
      decide
    · simp only [Option.some.injEq, GitObj.commit.injEq] at hso
      subst h2
      rw [← hso] at hp
      simp only [List.mem_singleton] at hp
      subst hp
      decide
    · simp only [Option.some.injEq, GitObj.commit.injEq] at hso
      rw [← hso] at hp
      simp at hp
  · intro s t hs ht hst _
    simp only [List.mem_singleton] at hs ht
    exact hst (hs.trans ht.symm)

/-- C7 (confirmed): expanding a hash whose object is neither commit nor tag
    fails with an ObjectTypeError carrying that hash, the actual kind, and
    the expected kind `commit`; a tag chain ending at such an object reports
    the dereferenced hash; the error aborts the walk of any starting list
    beginning with the hash, and the whole operation returns the error (with
    the `caller` mark) instead of a map. -/
theorem C7_object_type (store : Store) (sh : List Hash) (fuel : Nat) (h t : Hash)
    (k : String) (vm : VisitedMap) (tr : List Hash) (rest : List Hash)
    (resolve : String → Option Hash) (r : String) (finish : List String)
    (hso : store h = some (GitObj.other k))
    (hst : store t = some (GitObj.tag h))
    (hres : resolve r = some h) :
    walk store sh (fuel + 1) h vm tr =
      Except.error (ErrKind.objectType h k "commit") ∧
    walk store sh (fuel + 2) t vm tr =
      Except.error (ErrKind.objectType h k "commit") ∧
    walkAll store sh (fuel + 1) (h :: rest) vm tr =
      Except.error (ErrKind.objectType h k "commit") ∧
    listCommitsFull true true resolve store sh [r] finish (fuel + 1) =
      Except.error { kind := ErrKind.objectType h k "commit",
                     caller := "git.listBranches" } := by
  have hw : walk store sh (fuel + 1) h vm tr =
      Except.error (ErrKind.objectType h k "commit") := by
    simp only [walk, hso]
  refine ⟨hw, ?_, ?_, ?_⟩
  · show walk store sh (fuel + 1 + 1) t vm tr = _
    simp only [walk, hst, hso]
  · simp only [walkAll, walk, hso]
  · simp only [listCommitsFull, listCommitsCore, resolveStart, hres, setAdd,
      List.contains_nil, walkAll, walk, hso]
    rfl

/-- C7 witness: the blob store, reached directly and through a resolver. -/
theorem C7_object_type_witness :
    walk storeBlob [] 5 "x" [] [] =
      Except.error (ErrKind.objectType "x" "blob" "commit") ∧
    listCommitsFull true true (fun r => if r = "main" then some "x" else none)
        storeBlob [] ["main"] [] 5 =
      Except.error { kind := ErrKind.objectType "x" "blob" "commit",
                     caller := "git.listBranches" } := by
  have h := C7_object_type storeBlob [] 4 "x" "t" "blob" [] [] []
    (fun r => if r = "main" then some "x" else none) "main" [] rfl rfl rfl
  exact ⟨h.1, h.2.2.2⟩

/-- C8 (confirmed): the operation is deterministic.  The embedding is a pure
    function of the store, shallow set and starting refs — the source's
    `visited` map and read `cache` are created fresh inside each invocation,
    so a second run over an unchanged store is the same function application:
    two successful runs agree as maps, key for key, children list for
    children list (same sequences in the same order). -/
theorem C8_deterministic (fsGiven gitdirGiven : Bool) (resolve : String → Option Hash)
    (store : Store) (sh : List Hash) (branches finish : List String) (fuel : Nat)
    (r1 r2 : VisitedMap)
    (h1 : listCommitsCore fsGiven gitdirGiven resolve store sh branches finish fuel =
      Except.ok r1)
    (h2 : listCommitsCore fsGiven gitdirGiven resolve store sh branches finish fuel =
      Except.ok r2) :
    r1 = r2 ∧ (∀ k, vmGet r1 k = vmGet r2 k) ∧ (∀ k, vmHas r1 k = vmHas r2 k) := by
  have h := h1.symm.trans h2
  injection h with h
  subst h
  exact ⟨rfl, fun k => rfl, fun k => rfl⟩

/-- C8 witness: two runs over the unchanged linear store. -/
theorem C8_deterministic_witness :
    ([("c", []), ("a", ["b"]), ("b", ["c"])] : VisitedMap) =
      [("c", []), ("a", ["b"]), ("b", ["c"])] :=
  (C8_deterministic true true (fun r => if r = "m" then some "c" else none)
    storeLin [] ["m"] [] 9 [("c", []), ("a", ["b"]), ("b", ["c"])]
    [("c", []), ("a", ["b"]), ("b", ["c"])] rfl rfl).1

/-- C9 (confirmed): the finishing set is inert.  A reference of the finishing
    set that fails to resolve is silently skipped (the loop proceeds with the
    remaining refs and never raises), and the whole operation returns exactly
    the same result for any two finishing lists — resolved or not, the
    finishing set never affects the traversal or the returned map.  (In the
    source the list is moreover pinned to `[]`.) -/
theorem C9_finish_inert (fsGiven gitdirGiven : Bool) (resolve : String → Option Hash)
    (store : Store) (sh : List Hash) (branches : List String) (fuel : Nat)
    (finish1 finish2 : List String) (r : String) (rs : List String) (acc : List Hash)
    (hfail : resolve r = none) :
    listCommitsFull fsGiven gitdirGiven resolve store sh branches finish1 fuel =
      listCommitsFull fsGiven gitdirGiven resolve store sh branches finish2 fuel ∧
    resolveFinish resolve (r :: rs) acc = resolveFinish resolve rs acc := by
  constructor
  · rfl
  · simp only [resolveFinish, hfail]

/-- C9 witness: an unresolvable finishing ref is swallowed and the result
    matches the empty finishing list. -/
theorem C9_finish_inert_witness :
    listCommitsFull true true (fun r => if r = "m" then some "c" else none)
        storeLin [] ["m"] ["gone"] 9 =
      listCommitsFull true true (fun r => if r = "m" then some "c" else none)
        storeLin [] ["m"] [] 9 ∧
    resolveFinish (fun r => if r = "m" then some "c" else none) ["gone"] [] =
      resolveFinish (fun r => if r = "m" then some "c" else none) [] [] :=
  C9_finish_inert true true (fun r => if r = "m" then some "c" else none)
    storeLin [] ["m"] 9 ["gone"] [] "gone" [] [] rfl

/-- C10 (confirmed): every failure of the operation — missing parameter,
    starting-ref resolution failure, read failure, object-type mismatch (and
    the fuel artifact) — is rethrown with its `caller` field set to the
    string `git.listBranches`, exactly as the source's catch block does. -/
theorem C10_caller (fsGiven gitdirGiven : Bool) (resolve : String → Option Hash)
    (store : Store) (sh : List Hash) (branches finish : List String) (fuel : Nat)
    (e : Err)
    (h : listCommitsFull fsGiven gitdirGiven resolve store sh branches finish fuel =
      Except.error e) :
    e.caller = "git.listBranches" := by
  unfold listCommitsFull at h
  cases hc : listCommitsCore fsGiven gitdirGiven resolve store sh branches finish fuel with
  | error e0 =>
    rw [hc] at h
    injection h with h
    rw [← h]
  | ok v =>
    rw [hc] at h
    cases h

/-- C10 witness: the missing-`fs` failure carries the caller mark. -/
theorem C10_caller_witness :
    Err.caller { kind := ErrKind.missingParameter "fs",
                 caller := "git.listBranches" } = "git.listBranches" :=
  C10_caller false true (fun _ => none) storeLin [] [] [] 5
    { kind := ErrKind.missingParameter "fs", caller := "git.listBranches" } rfl
